import Mathlib

/-!
Verification development for the micron cron-scheduler library.

The definitions below are a shallow embedding of the Go sources:
the per-field resolver algebra (schedule/resolve), the AST validator and
processor of cron expressions (schedule/cronlex/validate.go and process.go),
the next-fire scheduler (schedule/scheduler.go), the selector cohort
computation (selector/selector.go) and the runtime error-channel loop
(cron.go).  Machine integers are modelled as Int (the Go code uses int and
never overflows on the value ranges involved), byte-slice token values as
String, and Go errors as explicit error-kind lists (errors.Join corresponds
to list append, so a nil joined error corresponds to the empty list).
-/

namespace Micron

/-! ### Tokens and the (stratified) AST

Token mirrors cronlex.Token.  The parser produces a tree whose top level is a
list of field nodes; a field node owns symbol nodes (comma, dash, slash, or
the at-keyword child), and a symbol node owns single value leaves.  The Go
code uses one recursive Node type; parser output always has this three-layer
shape, which the stratified types below capture directly. -/

inductive Token where
  | eof
  | error
  | alphaNum
  | star
  | comma
  | dash
  | slash
  | at
  | space
deriving DecidableEq, Repr

/-- Leaf of the AST: a token together with the byte-slice value it carries. -/
structure LeafNode where
  type : Token
  value : String
deriving DecidableEq, Repr

/-- Symbol node: a comma, dash or slash chained to a field (or the value node
under an at-keyword), holding its partner value leaves as edges. -/
structure SymNode where
  type : Token
  value : String
  edges : List LeafNode
deriving DecidableEq, Repr

/-- Top-level field node of a cron expression, with its chained symbol nodes. -/
structure FieldNode where
  type : Token
  value : String
  edges : List SymNode
deriving DecidableEq, Repr

/-! ### String helpers

Values carried by tokens are built from bytes in [A-Za-z0-9], so the ASCII
uppercase map and a digits-only Atoi are faithful models of strings.ToUpper
and strconv.Atoi on every reachable value (sign handling and overflow of
strconv.Atoi are unreachable: the character pre-check refuses signs, and all
in-range values are tiny). -/

/-- ASCII uppercase of one character, as strings.ToUpper acts on the legal
character set. -/
def upChar (c : Char) : Char :=
  if 'a' ≤ c ∧ c ≤ 'z' then Char.ofNat (c.toNat - 32) else c

/-- Numeric value of a decimal digit character, if it is one. -/
def digitVal (c : Char) : Option Nat :=
  if '0' ≤ c ∧ c ≤ '9' then some (c.toNat - 48) else none

/-- Accumulator loop of the decimal parse. -/
def digitsGo : List Char → Nat → Option Nat
  | [], acc => some acc
  | c :: cs, acc =>
    match digitVal c with
    | some d => digitsGo cs (acc * 10 + d)
    | none => none

/-- Model of strconv.Atoi restricted to the reachable inputs: all-digit
strings parse to their value, anything else is an error (none). -/
def atoi (s : String) : Option Int :=
  match s.data with
  | [] => none
  | cs => (digitsGo cs 0).map (fun n => Int.ofNat n)

/-! ### Name lists (validate.go) -/

/-- Month names, indexed 1..12; index 0 is the empty string. -/
def monthsList : List String :=
  ["", "JAN", "FEB", "MAR", "APR", "MAY", "JUN", "JUL", "AUG", "SEP", "OCT", "NOV", "DEC"]

/-- Weekday names, indexed 0..7; index 7 is the non-standard second Sunday. -/
def weekdaysList : List String :=
  ["SUN", "MON", "TUE", "WED", "THU", "FRI", "SAT", "SUN"]

/-- The at-keyword names, indexed 0..6. -/
def exceptionsList : List String :=
  ["REBOOT", "HOURLY", "DAILY", "WEEKLY", "MONTHLY", "ANNUALLY", "YEARLY"]

/-! ### The resolver algebra (schedule/resolve, src/unnamed/part_016) -/

/-- Closed variant over the four resolver implementations: Everytime,
FixedSchedule, RangeSchedule and StepSchedule.  Field names match the Go
struct fields (At and From are renamed to atv and fromv: at and from are
Lean keywords). -/
inductive Resolver where
  | everytime
  | fixed (max atv : Int)
  | range (max fromv tov : Int)
  | step (max : Int) (steps : List Int)
deriving DecidableEq, Repr

/-- The diff helper of schedule/resolve: distance from value to the target
window, wrapping by adding maximum when the value lies past the window. -/
def diff (value fromv tov maximum : Int) : Int :=
  if value > tov then fromv + maximum - value else fromv - value

/-- Resolve of each resolver variant, exactly as in schedule/resolve.
StepSchedule.Resolve folds over the steps with a -1 sentinel offset. -/
def Resolver.Resolve : Resolver → Int → Int
  | .everytime, _ => 0
  | .fixed m a, value => diff value a a m
  | .range m f t, value =>
    if value > f ∧ value < t then 0 else diff value f t m
  | .step m steps, value =>
    steps.foldl
      (fun offset x =>
        if offset = -1 then diff value x x m
        else if diff value x x m < offset then diff value x x m else offset)
      (-1)

/-! ### Step-list construction (process.go and resolve.NewStepSchedule) -/

/-- Loop body shared by newValueRange and buildFreq: collect i, i+freq, ...
while i stays at most tov.  The Go loop terminates exactly when freq is
positive, which validation guarantees on every reachable call; the fuel
argument is always sufficient for those calls. -/
def valueRangeGo (freq tov : Int) : Int → Nat → List Int
  | _, 0 => []
  | i, fuel + 1 => if i ≤ tov then i :: valueRangeGo freq tov (i + freq) fuel else []

/-- Model of resolve.newValueRange: empty on zero frequency or empty window,
otherwise the arithmetic progression from fromv to tov. -/
def newValueRange (fromv tov freq : Int) : List Int :=
  if freq = 0 ∨ fromv > tov then []
  else valueRangeGo freq tov fromv ((tov - fromv).toNat + 1)

/-- Model of cronlex.buildRange: inclusive integer range, empty when inverted. -/
def buildRange (fromv tov : Int) : List Int :=
  if tov < fromv then []
  else valueRangeGo 1 tov fromv ((tov - fromv).toNat + 1)

/-- Model of cronlex.buildFreq: progression from base to maximum stepping by
freq, empty on zero frequency or base past maximum. -/
def buildFreq (base maximum freq : Int) : List Int :=
  if freq = 0 ∨ base > maximum then []
  else valueRangeGo freq maximum base ((maximum - base).toNat + 1)

/-- The sorted permutation of a list, as slices.Sort produces on int slices. -/
def sortInt (l : List Int) : List Int :=
  l.insertionSort (· ≤ ·)

/-- Model of slices.Compact: collapse runs of consecutive equal elements. -/
def compact : List Int → List Int
  | [] => []
  | [a] => [a]
  | a :: b :: t => if a = b then compact (b :: t) else a :: compact (b :: t)

/-! ### Validator (schedule/cronlex/validate.go)

Go errors are modelled by their kind; errors.Join of several validators is
list append, and the nil error is the empty list.  The entity wrapping that
validate.go adds around field errors preserves the kind and is dropped. -/

inductive VErr where
  | invalidNumNodes
  | invalidNodeType
  | invalidNumEdges
  | invalidFrequency
  | unsupportedAlphanum
  | outOfBoundsAlphanum
  | emptyAlphanum
  | invalidAlphanum
deriving DecidableEq, Repr

/-- First non-nil error of a sequence of checks, as an early-returning Go
loop produces. -/
def firstErr : List (List VErr) → List VErr
  | [] => []
  | e :: es => if e = [] then firstErr es else e

/-- Model of cronlex.validateNumber. -/
def validateNumber (value : String) (minimum maximum : Int) : List VErr :=
  match atoi value with
  | none => [.unsupportedAlphanum]
  | some num =>
    if num < minimum ∨ num > maximum then [.outOfBoundsAlphanum] else []

/-- Model of cronlex.validateAlpha: numbers by leading digit, otherwise a
case-insensitive match against the closed name list. -/
def validateAlpha (value : String) (minimum maximum : Int) (valueList : List String) : List VErr :=
  match value.data with
  | [] => [.emptyAlphanum]
  | c :: _ =>
    if '0' ≤ c ∧ c ≤ '9' then validateNumber value minimum maximum
    else if valueList.any (fun w => w.data = value.data.map upChar) then []
    else [.invalidAlphanum]

/-- Check of one symbol edge inside validateSymbols: a symbol whose type is
not in the valid list is skipped; a matching symbol must carry exactly one
child, an Error child is rejected, and the child value must pass valueFunc. -/
def checkSymbolEdge (validSymbols : List Token) (valueFunc : String → List VErr)
    (e : SymNode) : List VErr :=
  if e.type ∈ validSymbols then
    match e.edges with
    | [c] => if c.type = .error then [.invalidAlphanum] else valueFunc c.value
    | _ => [.invalidNumEdges]
  else []

/-- Model of cronlex.validateSymbols. -/
def validateSymbols (edges : List SymNode) (maxEdges : Nat) (validSymbols : List Token)
    (valueFunc : String → List VErr) : List VErr :=
  if edges = [] then []
  else if edges.length > maxEdges then [.invalidNumEdges]
  else firstErr (edges.map (checkSymbolEdge validSymbols valueFunc))

/-- Recursive call of validateField on a grandchild leaf.  On a leaf, the Star
branch checks an empty edge list (nil) and the AlphaNum branch computes the
root value error but drops it because the symbol error is nil and there are
no edges; only an unexpected node type reports an error. -/
def validateLeaf (leaf : LeafNode) : List VErr :=
  match leaf.type with
  | .star => []
  | .alphaNum => []
  | _ => [.invalidNodeType]

/-- Model of cronlex.validateField on a field node.  Note that in the
AlphaNum branch the root value error err is only returned joined to a
non-nil symbol error: with clean symbols the root value check is dropped,
exactly as in the source. -/
def validateField (node : FieldNode) (maxEdges : Nat) (minimum maximum : Int)
    (valueFunc : String → List VErr) : List VErr :=
  match node.type with
  | .star => validateSymbols node.edges 1 [.slash] valueFunc
  | .alphaNum =>
    let err := validateNumber node.value minimum maximum
    let symbolErr :=
      validateSymbols node.edges maxEdges [.alphaNum, .slash, .comma, .dash] valueFunc
    if symbolErr ≠ [] then err ++ symbolErr
    else firstErr (node.edges.map (fun e => firstErr (e.edges.map validateLeaf)))
  | _ => [.invalidNodeType]

/-- Model of cronlex.validateOverride: the keyword under the at-node is
matched byte-for-byte against the lowercase keyword literals. -/
def validateOverride (node : FieldNode) : List VErr :=
  if node.type ≠ .at then [.invalidNodeType]
  else
    match node.edges with
    | [e] =>
      if e.value = "yearly" ∨ e.value = "annually" ∨ e.value = "monthly" ∨
          e.value = "weekly" ∨ e.value = "daily" ∨ e.value = "hourly" ∨
          e.value = "reboot" then []
      else [.invalidFrequency]
    | _ => [.invalidNumEdges]

/-- Model of cronlex.validateSeconds. -/
def validateSecondsF (node : FieldNode) : List VErr :=
  validateField node 60 0 59 (fun s => validateNumber s 0 59)

/-- Model of cronlex.validateMinutes. -/
def validateMinutesF (node : FieldNode) : List VErr :=
  validateField node 60 0 59 (fun s => validateNumber s 0 59)

/-- Model of cronlex.validateHours. -/
def validateHoursF (node : FieldNode) : List VErr :=
  validateField node 24 0 23 (fun s => validateNumber s 0 23)

/-- Model of cronlex.validateMonthDays. -/
def validateMonthDaysF (node : FieldNode) : List VErr :=
  validateField node 31 1 31 (fun s => validateNumber s 1 31)

/-- Model of cronlex.validateMonths. -/
def validateMonthsF (node : FieldNode) : List VErr :=
  validateField node 12 1 12 (fun s => validateAlpha s 1 12 monthsList)

/-- Model of cronlex.validateWeekDays. -/
def validateWeekDaysF (node : FieldNode) : List VErr :=
  validateField node 7 0 7 (fun s => validateAlpha s 0 7 weekdaysList)

/-- Model of cronlex.Validate over the list of top-level nodes: one node is
an at-override, five and six nodes are field lists with joined per-field
errors, anything else is an invalid node count. -/
def Validate (t : List FieldNode) : List VErr :=
  match t with
  | [n] => validateOverride n
  | [a, b, c, d, e] =>
    validateMinutesF a ++ validateHoursF b ++ validateMonthDaysF c ++
      validateMonthsF d ++ validateWeekDaysF e
  | [a, b, c, d, e, f] =>
    validateSecondsF a ++ validateMinutesF b ++ validateHoursF c ++
      validateMonthDaysF d ++ validateMonthsF e ++ validateWeekDaysF f
  | _ => [.invalidNumNodes]

/-! ### Processor (schedule/cronlex/process.go) -/

/-- Index lookup loop inside getValue: first match of the uppercased value
in the list, with the -1 default. -/
def idxGo : List String → List Char → Nat → Int
  | [], _, _ => -1
  | w :: ws, v, i => if w.data = v then Int.ofNat i else idxGo ws v (i + 1)

/-- Model of cronlex.getValue on a node value: numbers by leading digit and a
successful Atoi, otherwise the index of the uppercased name in the list
(-1 when absent). -/
def getValue (value : String) (valueList : List String) : Int :=
  match value.data with
  | c :: _ =>
    if '0' ≤ c ∧ c ≤ '9' then
      match atoi value with
      | some num => num
      | none => idxGo valueList (value.data.map upChar) 0
    else idxGo valueList (value.data.map upChar) 0
  | [] => idxGo valueList (value.data.map upChar) 0

/-- Model of cronlex.getValueFromSymbol: the value of the single child, or
-1 when the symbol does not have exactly one child. -/
def getValueFromSymbol (symbol : SymNode) (valueList : List String) : Int :=
  match symbol.edges with
  | [c] => getValue c.value valueList
  | _ => -1

/-- The symbol walk of processAlphaNum building the step values: comma
appends the carried value (and at the first edge also the initial value) and
re-bases; dash appends the inclusive range; slash appends the frequency
progression; other symbol types are skipped.  The first flag models the
i == 0 test of the Go loop. -/
def walkEdges (valueList : List String) (maximum : Int) :
    List SymNode → Int → Bool → List Int → List Int
  | [], _, _, acc => acc
  | e :: rest, value, first, acc =>
    match e.type with
    | .comma =>
      let acc := if first then acc ++ [value] else acc
      let v := getValueFromSymbol e valueList
      if v ≥ 0 then walkEdges valueList maximum rest v false (acc ++ [v])
      else walkEdges valueList maximum rest value false acc
    | .dash =>
      let tov := getValueFromSymbol e valueList
      if tov ≥ 0 then walkEdges valueList maximum rest value false (acc ++ buildRange value tov)
      else walkEdges valueList maximum rest value false acc
    | .slash =>
      let freq := getValueFromSymbol e valueList
      if freq ≥ 0 then
        walkEdges valueList maximum rest value false (acc ++ buildFreq value maximum freq)
      else walkEdges valueList maximum rest value false acc
    | _ => walkEdges valueList maximum rest value false acc

/-- Model of cronlex.processAlphaNum: a bare value is a FixedSchedule, a
single dash edge is a RangeSchedule, and any other edge combination builds a
StepSchedule from the sorted, deduplicated symbol walk. -/
def processAlphaNum (n : FieldNode) (maximum : Int) (valueList : List String) : Resolver :=
  let value := getValue n.value valueList
  match n.edges with
  | [] => .fixed maximum value
  | e :: rest =>
    if rest = [] ∧ e.type = .dash then
      .range maximum value (getValueFromSymbol e valueList)
    else
      .step maximum (compact (sortInt (walkEdges valueList maximum (e :: rest) value true [])))

/-- Model of cronlex.processStar: a star with a single slash symbol carrying
one numeric child builds the stepped range, anything else is Everytime. -/
def processStar (n : FieldNode) (minimum maximum : Int) : Resolver :=
  match n.edges with
  | [e] =>
    match e.edges with
    | [c] =>
      if e.type = .slash then
        match atoi c.value with
        | some stepValue => .step maximum (newValueRange minimum maximum stepValue)
        | none => .everytime
      else .everytime
    | _ => .everytime
  | _ => .everytime

/-- Model of cronlex.buildSeconds. -/
def buildSeconds (node : FieldNode) : Resolver :=
  match node.type with
  | .star => processStar node 0 59
  | _ => processAlphaNum node 59 []

/-- Model of cronlex.buildMinutes. -/
def buildMinutes (node : FieldNode) : Resolver :=
  match node.type with
  | .star => processStar node 0 59
  | _ => processAlphaNum node 59 []

/-- Model of cronlex.buildHours. -/
def buildHours (node : FieldNode) : Resolver :=
  match node.type with
  | .star => processStar node 0 23
  | _ => processAlphaNum node 23 []

/-- Model of cronlex.buildMonthDays. -/
def buildMonthDays (node : FieldNode) : Resolver :=
  match node.type with
  | .star => processStar node 1 31
  | _ => processAlphaNum node 31 []

/-- Model of cronlex.buildMonths. -/
def buildMonths (node : FieldNode) : Resolver :=
  match node.type with
  | .star => processStar node 1 12
  | _ => processAlphaNum node 12 monthsList

/-- Model of cronlex.buildWeekdays. -/
def buildWeekdays (node : FieldNode) : Resolver :=
  match node.type with
  | .star => processStar node 0 7
  | _ => processAlphaNum node 7 weekdaysList

/-- The six per-field resolvers of a compiled schedule (cronlex.Schedule).
The time zone lives on the scheduler, not here. -/
structure Schedule where
  sec : Resolver
  min : Resolver
  hour : Resolver
  dayMonth : Resolver
  month : Resolver
  dayWeek : Resolver
deriving DecidableEq, Repr

/-- Model of cronlex.defaultSchedule. -/
def defaultSchedule : Schedule :=
  ⟨.fixed 59 0, .fixed 59 0, .everytime, .everytime, .everytime, .everytime⟩

/-- Model of cronlex.buildException, expanding an at-keyword into its
canonical schedule.  An at-node without edges is unreachable after
validation (the Go code would panic there); it maps to the default.  The
keyword index constants are reboot 0, hourly 1, daily 2, weekly 3,
monthly 4, yearly 5, annually 6, looked up in exceptionsList. -/
def buildException (node : FieldNode) : Schedule :=
  if node.type ≠ .at then defaultSchedule
  else
    match node.edges with
    | [] => defaultSchedule
    | e :: _ =>
      let value := getValue e.value exceptionsList
      if value = 0 then defaultSchedule
      else if value = 2 then
        ⟨.fixed 59 0, .fixed 59 0, .fixed 23 0, .everytime, .everytime, .everytime⟩
      else if value = 3 then
        ⟨.fixed 59 0, .fixed 59 0, .fixed 23 0, .everytime, .everytime, .fixed 7 0⟩
      else if value = 4 then
        ⟨.fixed 59 0, .fixed 59 0, .fixed 23 0, .fixed 31 1, .everytime, .everytime⟩
      else if value = 5 ∨ value = 6 then
        ⟨.fixed 59 0, .fixed 59 0, .fixed 23 0, .fixed 31 1, .fixed 12 1, .everytime⟩
      else defaultSchedule

/-- The loop of ProcessFunc converting weekday 7 into 0: scan the step list
by index, and whenever a 7 is found replace it with 0 and re-sort before
continuing the scan.  The fuel is the original list length, which both the
replacement and the sort preserve. -/
def sundayGo : List Int → Nat → Nat → List Int
  | l, _, 0 => l
  | l, i, fuel + 1 =>
    if l[i]? = some 7 then sundayGo (sortInt (l.set i 0)) (i + 1) fuel
    else sundayGo l (i + 1) fuel

/-- Entry of the weekday-7 normalization loop. -/
def sundayLoop (l : List Int) : List Int :=
  sundayGo l 0 l.length

/-- The weekday normalization of ProcessFunc applied to a schedule: only a
StepSchedule in the day-of-week slot is rewritten. -/
def fixSunday (s : Schedule) : Schedule :=
  match s.dayWeek with
  | .step m steps => { s with dayWeek := .step m (sundayLoop steps) }
  | _ => s

/-- Model of cronlex.ProcessFunc: validate, then build the schedule from the
top-level node count.  The override path returns before the weekday
normalization, as in the source.  Node counts other than 1, 5 and 6 cannot
pass validation; they map to none (the Go code would return a zero Schedule
with nil resolvers there, which no caller can reach). -/
def ProcessFunc (t : List FieldNode) : Option Schedule :=
  if Validate t ≠ [] then none
  else
    match t with
    | [n] => some (buildException n)
    | [a, b, c, d, e] =>
      some (fixSunday
        ⟨.fixed 59 0, buildMinutes a, buildHours b, buildMonthDays c,
          buildMonths d, buildWeekdays e⟩)
    | [a, b, c, d, e, f] =>
      some (fixSunday
        ⟨buildSeconds a, buildMinutes b, buildHours c, buildMonthDays d,
          buildMonths e, buildWeekdays f⟩)
    | _ => none

/-! ### Civil time and the scheduler (schedule/scheduler.go)

A time.Time localized to the schedule zone is modelled by its civil
components (year, month, day, hour, minute, second); sub-second precision
plays no role in Next (the source reads whole seconds and always writes a
zero nanosecond).  Go constructs the next-fire instant with one time.Date
call, whose normalization is: months fold into years, then seconds fold
into minutes, minutes into hours and hours into days by euclidean division
(Go's norm helper), and finally an out-of-range day is resolved by walking
through month lengths, which is how absolute-day arithmetic acts on civil
dates. -/

/-- Gregorian leap-year rule, as time.isLeap. -/
def isLeap (y : Int) : Prop :=
  y % 4 = 0 ∧ (y % 100 ≠ 0 ∨ y % 400 = 0)

instance (y : Int) : Decidable (isLeap y) := by
  unfold isLeap; infer_instance

/-- Number of days of a month (1..12) in a year, as time.daysIn. -/
def daysInMonth (y m : Int) : Int :=
  if m = 2 then (if isLeap y then 29 else 28)
  else if m = 4 ∨ m = 6 ∨ m = 9 ∨ m = 11 then 30
  else 31

/-- Civil date-time tuple standing for a time.Time in the schedule zone. -/
structure DateTime where
  y : Int
  m : Int
  d : Int
  hh : Int
  mm : Int
  ss : Int
deriving DecidableEq, Repr

/-- In-range civil tuples: exactly the tuples that name a real instant. -/
def DateTime.Valid (t : DateTime) : Prop :=
  1 ≤ t.m ∧ t.m ≤ 12 ∧ 1 ≤ t.d ∧ t.d ≤ daysInMonth t.y t.m ∧
    0 ≤ t.hh ∧ t.hh ≤ 23 ∧ 0 ≤ t.mm ∧ t.mm ≤ 59 ∧ 0 ≤ t.ss ∧ t.ss ≤ 59

instance (t : DateTime) : Decidable t.Valid := by
  unfold DateTime.Valid; infer_instance

/-- Go's time.norm helper: fold the low component into the high one so that
the low one lands in [0, base).  The source writes the two adjustments with
non-negative truncated divisions, which the euclidean divisions below agree
with. -/
def norm (hi lo base : Int) : Int × Int :=
  let p := if lo < 0 then (hi - ((-lo - 1) / base + 1), lo + ((-lo - 1) / base + 1) * base)
    else (hi, lo)
  if p.2 ≥ base then (p.1 + p.2 / base, p.2 - p.2 / base * base) else p

/-- Day-of-month resolution of time.Date: an out-of-range day is folded
through month lengths, one month per step, which is exactly how adding the
excess days to the first of the month behaves.  The fuel passed by
mkDateTime covers every reachable input. -/
def daysFix : Nat → Int → Int → Int → Int × Int × Int
  | 0, y, m, d => (y, m, d)
  | fuel + 1, y, m, d =>
    if d < 1 then
      let p := if m = 1 then (y - 1, (12 : Int)) else (y, m - 1)
      daysFix fuel p.1 p.2 (d + daysInMonth p.1 p.2)
    else if d > daysInMonth y m then
      let p := if m = 12 then (y + 1, (1 : Int)) else (y, m + 1)
      daysFix fuel p.1 p.2 (d - daysInMonth y m)
    else (y, m, d)

/-- Model of time.Date on whole seconds: normalize the month into the year,
fold seconds, minutes and hours upward, then resolve the day through month
lengths. -/
def mkDateTime (y mo d hh mi ss : Int) : DateTime :=
  let pm := norm y (mo - 1) 12
  let pmin := norm mi ss 60
  let phour := norm hh pmin.1 60
  let pday := norm d phour.1 24
  let f := daysFix (pday.1.natAbs + 800) pm.1 (pm.2 + 1) pday.1
  ⟨f.1, f.2.1, f.2.2, pday.2, phour.2, pmin.2⟩

/-- Days since 1970-01-01 of a civil date (standard civil-from-days
arithmetic); used only to read the weekday of a date, as time.Time.Weekday
does from its absolute day count. -/
def daysFromCivil (y m d : Int) : Int :=
  let yy := if m ≤ 2 then y - 1 else y
  let era := (if 0 ≤ yy then yy else yy - 399) / 400
  let yoe := yy - era * 400
  let mp := if m ≤ 2 then m + 9 else m - 3
  let doy := (153 * mp + 2) / 5 + d - 1
  let doe := yoe * 365 + yoe / 4 - yoe / 100 + doy
  era * 146097 + doe - 719468

/-- Weekday index of a civil date, Sunday = 0 (1970-01-01 was a Thursday). -/
def weekdayOf (y m d : Int) : Int :=
  (daysFromCivil y m d + 4) % 7

/-- The fixed implicit-seconds resolver the scheduler special-cases
(schedule/scheduler.go, var fixedSeconds). -/
def fixedSeconds : Resolver := .fixed 59 0

/-- Model of CronSchedule.Next: decompose the input time, resolve each field
on the candidate (seconds get a +1 candidate, and one extra second when the
seconds resolver is the implicit fixedSeconds), build the day-of-month time
with one time.Date call, and short-circuit unless a day-of-week resolver is
set, in which case the day advances by the weekday distance.  A nil
day-of-week resolver cannot occur in a processed schedule, so only the
Everytime test of the source shows. -/
def Next (s : Schedule) (t : DateTime) : DateTime :=
  let second := t.ss + 1
  let nextSecond0 := s.sec.Resolve second
  let nextSecond := if s.sec = fixedSeconds then nextSecond0 + 1 else nextSecond0
  let nextMinute := s.min.Resolve t.mm
  let nextHour := s.hour.Resolve t.hh
  let nextDay := s.dayMonth.Resolve t.d
  let nextMonth := s.month.Resolve t.m
  let dayOfMonthTime :=
    mkDateTime t.y (t.m + nextMonth) (t.d + nextDay) (t.hh + nextHour)
      (t.mm + nextMinute) (second + nextSecond)
  match s.dayWeek with
  | .everytime => dayOfMonthTime
  | dw =>
    let curWeekday := weekdayOf dayOfMonthTime.y dayOfMonthTime.m dayOfMonthTime.d
    let nextWeekday := dw.Resolve curWeekday
    mkDateTime dayOfMonthTime.y dayOfMonthTime.m (dayOfMonthTime.d + nextWeekday)
      dayOfMonthTime.hh dayOfMonthTime.mm dayOfMonthTime.ss

/-- The top of the minute that follows t: minute + 1 with second zero,
normalized by the calendar. -/
def nextMinuteBoundary (t : DateTime) : DateTime :=
  mkDateTime t.y t.m t.d t.hh (t.mm + 1) 0

/-- Chronological strict order on civil tuples (lexicographic by component;
on valid tuples this is the instant order). -/
def dtLt (a b : DateTime) : Prop :=
  a.y < b.y ∨ (a.y = b.y ∧ (a.m < b.m ∨ (a.m = b.m ∧ (a.d < b.d ∨ (a.d = b.d ∧
    (a.hh < b.hh ∨ (a.hh = b.hh ∧ (a.mm < b.mm ∨ (a.mm = b.mm ∧ a.ss < b.ss)))))))))

instance (a b : DateTime) : Decidable (dtLt a b) := by
  unfold dtLt; infer_instance

/-- Chronological non-strict order on civil tuples. -/
def dtLe (a b : DateTime) : Prop :=
  dtLt a b ∨ a = b

instance (a b : DateTime) : Decidable (dtLe a b) := by
  unfold dtLe; infer_instance

/-! ### Selector cohort computation (selector/selector.go, Selector.next) -/

/-- Loop of Selector.next after the first executor seeded the running
earliest distance and the cohort: an equal distance joins the cohort, a
strictly smaller one restarts it, and a larger one is skipped. -/
def selGo {α : Type} (nf : α → Int) : List α → Int → List α → List α
  | [], _, acc => acc
  | e :: rest, next, acc =>
    if nf e = next then selGo nf rest next (acc ++ [e])
    else if nf e < next then selGo nf rest (nf e) [e]
    else selGo nf rest next acc

/-- Model of Selector.next: nf gives each executor's next-fire distance
(Next(ctx).Sub(now), one shared now); the first executor seeds the state
(the i == 0 branch) and the loop keeps the earliest cohort in registration
order. -/
def selNext {α : Type} (nf : α → Int) : List α → List α
  | [] => []
  | e :: rest => selGo nf rest (nf e) [e]

/-- The minimum next-fire distance over a non-empty executor list, written
as the fold the specification refers to. -/
def listMinBy {α : Type} (nf : α → Int) (hd : α) (tl : List α) : Int :=
  tl.foldl (fun a e => Min.min a (nf e)) (nf hd)

/-! ### Runtime error-channel loop (cron.go, runtime.Run) -/

/-- Outcome of one loop iteration with respect to the error channel: the
iteration completed (with the new channel contents), or the send blocked. -/
inductive RunOutcome (E : Type) where
  | proceeded (queue : List E)
  | blocked
deriving DecidableEq, Repr

/-- A Go send on a buffered channel with no ready receiver: append when a
buffer slot is free, block otherwise. -/
def sendErr {E : Type} (cap : Nat) (q : List E) (e : E) : RunOutcome E :=
  if q.length < cap then .proceeded (q ++ [e]) else .blocked

/-- One iteration of the Run loop past the cancellation check: a nil
selector error leaves the channel alone, a non-nil one is sent with a plain
(blocking) channel send. -/
def runStep {E : Type} (cap : Nat) (q : List E) (res : Option E) : RunOutcome E :=
  match res with
  | none => .proceeded q
  | some e => sendErr cap q e

/-- The Run loop driven by a list of selector results, with no concurrent
reader draining the channel: iterate runStep until the inputs run out or a
send blocks; the result is the channel contents plus, when blocked, the
unconsumed inputs starting at the blocking one. -/
def runLoop {E : Type} (cap : Nat) : List E → List (Option E) → List E × Option (List (Option E))
  | q, [] => (q, none)
  | q, r :: rest =>
    match runStep cap q r with
    | .proceeded q2 => runLoop cap q2 rest
    | .blocked => (q, some (r :: rest))

/-! ### Runtime configuration (cron.go and src/unnamed/part_003) -/

/-- Error-channel sizing constants of the runtime package. -/
def minBufferSize : Int := 64

/-- Default error-channel capacity. -/
def defaultBufferSize : Int := 1024

/-- Runtime configuration, restricted to the error-buffer field the sizing
pipeline reads and writes. -/
structure Config where
  errBufferSize : Int
deriving DecidableEq, Repr

/-- Model of defaultConfig: the error buffer starts at minBufferSize. -/
def defaultConfig : Config :=
  ⟨minBufferSize⟩

/-- Model of WithErrorBufferSize: a negative requested size is replaced by
the default before it is stored. -/
def withErrorBufferSize (size : Int) (c : Config) : Config :=
  let size := if size < 0 then defaultBufferSize else size
  { c with errBufferSize := size }

/-- The channel-capacity computation of newRuntime: a configured size below
minBufferSize falls back to defaultBufferSize. -/
def newRuntimeErrCap (c : Config) : Int :=
  if c.errBufferSize < minBufferSize then defaultBufferSize else c.errBufferSize

/-- End-to-end capacity of the runtime error channel for a caller-supplied
size: the option applied to the default configuration, then newRuntime. -/
def errChannelCapacity (size : Int) : Int :=
  newRuntimeErrCap (withErrorBufferSize size defaultConfig)

/-! ### Concrete cron expressions used as test inputs

Each tree below is the AST the parser produces for the quoted cron string
(field nodes at the top, symbol nodes with one value leaf below). -/

/-- A bare star field node. -/
def starNode : FieldNode := ⟨.star, "*", []⟩

/-- The five-field all-star expression. -/
def allStar5 : List FieldNode := [starNode, starNode, starNode, starNode, starNode]

/-- The schedule compiled from allStar5: implicit seconds plus Everytime. -/
def sStar : Schedule :=
  ⟨.fixed 59 0, .everytime, .everytime, .everytime, .everytime, .everytime⟩

/-- AST of the expression 10-20 * * * * (a minutes range). -/
def tr1020 : List FieldNode :=
  [⟨.alphaNum, "10", [⟨.dash, "-", [⟨.alphaNum, "20"⟩]⟩]⟩,
    starNode, starNode, starNode, starNode]

/-- AST of the expression * * * * 0,7 (both Sundays in the weekday field). -/
def tr07 : List FieldNode :=
  [starNode, starNode, starNode, starNode,
    ⟨.alphaNum, "0", [⟨.comma, ",", [⟨.alphaNum, "7"⟩]⟩]⟩]

/-- The schedule compiled from tr07. -/
def s07 : Schedule :=
  ⟨.fixed 59 0, .everytime, .everytime, .everytime, .everytime, .step 7 [0, 0]⟩

/-- AST of the expression */0 * * * * * (seconds star with step zero). -/
def trStep0 : List FieldNode :=
  [⟨.star, "*", [⟨.slash, "/", [⟨.alphaNum, "0"⟩]⟩]⟩,
    starNode, starNode, starNode, starNode, starNode]

/-- AST of the expression */0 * * * * (minutes star with step zero). -/
def trMin0 : List FieldNode :=
  [⟨.star, "*", [⟨.slash, "/", [⟨.alphaNum, "0"⟩]⟩]⟩,
    starNode, starNode, starNode, starNode]

/-- AST of the expression 1000,5 * * * * (bare out-of-range minutes value,
whose range error the validator drops). -/
def tr1000 : List FieldNode :=
  [⟨.alphaNum, "1000", [⟨.comma, ",", [⟨.alphaNum, "5"⟩]⟩]⟩,
    starNode, starNode, starNode, starNode]

/-- AST of the expression @WEEKLY. -/
def atUpperWeekly : List FieldNode := [⟨.at, "@", [⟨.alphaNum, "WEEKLY", []⟩]⟩]

/-- AST of the expression @weekly. -/
def atLowerWeekly : List FieldNode := [⟨.at, "@", [⟨.alphaNum, "weekly", []⟩]⟩]

/-- 2023-10-30 10:12:43 UTC, the instant the repository tests schedule from. -/
def dt1 : DateTime := ⟨2023, 10, 30, 10, 12, 43⟩

/-- 2023-10-30 10:13:00 UTC, the fire instant of allStar5 after dt1. -/
def dt2 : DateTime := ⟨2023, 10, 30, 10, 13, 0⟩

/-- 2023-10-30 10:12:50 UTC, an instant strictly inside (dt1, dt2). -/
def dt3 : DateTime := ⟨2023, 10, 30, 10, 12, 50⟩

/-! ## Theorems -/

/-! ### C1: the FixedSchedule resolve formula -/

/-- C1 (corrected): the specification formula claims the wrap branch returns
at + max + 1 - v, but FixedSchedule.Resolve wraps through max, not max + 1:
at 44 past target 0 with maximum 59 it returns 15, not the claimed 16. -/
theorem c1_counterexample :
    Resolver.Resolve (.fixed 59 0) 44 = 15 ∧ (0 : Int) + 59 + 1 - 44 = 16 ∧
      (15 : Int) ≠ 16 := by
  decide

/-- C1 (amended): for every Fixed resolver with maximum max and target at,
and every v in the field range, Resolve returns (at - v) when v ≤ at and
(at + max - v) otherwise, wrapping through max. -/
theorem c1_fixed_resolve_formula (max atv v : Int) (h0 : 0 ≤ v) (h1 : v ≤ max) :
    Resolver.Resolve (.fixed max atv) v =
      if v ≤ atv then atv - v else atv + max - v := by
  simp only [Resolver.Resolve, diff]
  split_ifs <;> omega

/-- C1 witness: the amended formula evaluated at maximum 59, target 30,
value 44. -/
theorem c1_witness :
    Resolver.Resolve (.fixed 59 30) 44 =
      if (44 : Int) ≤ 30 then 30 - 44 else 30 + 59 - 44 :=
  c1_fixed_resolve_formula 59 30 44 (by decide) (by decide)

/-! ### C2: the wrap invariant of parsed resolvers -/

/-- C2 (corrected): a Range resolver produced by parsing the valid
expression 10-20 * * * * resolves its upper bound to -10, outside [0, 61]. -/
theorem c2_counterexample :
    Validate tr1020 = [] ∧
      (ProcessFunc tr1020).map (fun s => s.min) = some (.range 59 10 20) ∧
      Resolver.Resolve (.range 59 10 20) 20 = -10 ∧ ¬(0 ≤ (-10 : Int)) := by
  decide

/-- Bound on diff when the window is one in-range target value. -/
theorem diff_point_bounds (M v x : Int) (h0 : 0 ≤ v) (h1 : v ≤ M)
    (h2 : 0 ≤ x) (h3 : x ≤ M) : 0 ≤ diff v x x M ∧ diff v x x M ≤ M := by
  unfold diff
  split_ifs <;> omega

/-- The step fold keeps its accumulator inside [0, M] once it starts there,
because every per-element distance lies in [0, M]. -/
theorem step_fold_bounds (M v : Int) (h0 : 0 ≤ v) (h1 : v ≤ M) :
    ∀ (steps : List Int) (acc : Int), 0 ≤ acc → acc ≤ M →
      (∀ x ∈ steps, 0 ≤ x ∧ x ≤ M) →
      0 ≤ steps.foldl
          (fun offset x =>
            if offset = -1 then diff v x x M
            else if diff v x x M < offset then diff v x x M else offset) acc ∧
        steps.foldl
          (fun offset x =>
            if offset = -1 then diff v x x M
            else if diff v x x M < offset then diff v x x M else offset) acc ≤ M := by
  intro steps
  induction steps with
  | nil => intro acc ha hb _; exact ⟨ha, hb⟩
  | cons x xs ih =>
    intro acc ha hb hmem
    have hx := hmem x (List.mem_cons_self x xs)
    have hd := diff_point_bounds M v x h0 h1 hx.1 hx.2
    have hrest : ∀ z ∈ xs, 0 ≤ z ∧ z ≤ M := fun z hz => hmem z (List.mem_cons_of_mem x hz)
    simp only [List.foldl_cons]
    split_ifs with hc hc2
    · exact ih _ hd.1 hd.2 hrest
    · exact ih _ hd.1 hd.2 hrest
    · exact ih _ ha hb hrest

/-- C2 (amended): on values in the field range, Everytime resolves to 0, an
in-range Fixed resolver resolves inside [0, M] ⊆ [0, M+1], and a Step
resolver with a non-empty in-range step list resolves inside [0, M]
⊆ [0, M+1].  (Range resolvers and empty step lists escape the claimed
interval: see the counterexample and C10.) -/
theorem c2_wrap_bounds (M v : Int) (h0 : 0 ≤ v) (h1 : v ≤ M) :
    Resolver.Resolve .everytime v = 0 ∧
      (∀ atv : Int, 0 ≤ atv → atv ≤ M →
        0 ≤ Resolver.Resolve (.fixed M atv) v ∧
          Resolver.Resolve (.fixed M atv) v ≤ M + 1) ∧
      (∀ steps : List Int, steps ≠ [] → (∀ x ∈ steps, 0 ≤ x ∧ x ≤ M) →
        0 ≤ Resolver.Resolve (.step M steps) v ∧
          Resolver.Resolve (.step M steps) v ≤ M + 1) := by
  refine ⟨rfl, ?_, ?_⟩
  · intro atv ha hb
    have := diff_point_bounds M v atv h0 h1 ha hb
    simp only [Resolver.Resolve]
    exact ⟨this.1, by omega⟩
  · intro steps hne hmem
    match steps with
    | [] => exact absurd rfl hne
    | x :: xs =>
      have hx := hmem x (List.mem_cons_self x xs)
      have hd := diff_point_bounds M v x h0 h1 hx.1 hx.2
      have hrest : ∀ z ∈ xs, 0 ≤ z ∧ z ≤ M :=
        fun z hz => hmem z (List.mem_cons_of_mem x hz)
      have hs : Resolver.Resolve (.step M (x :: xs)) v =
          xs.foldl
            (fun offset z =>
              if offset = -1 then diff v z z M
              else if diff v z z M < offset then diff v z z M else offset)
            (diff v x x M) := by
        simp [Resolver.Resolve]
      rw [hs]
      have := step_fold_bounds M v h0 h1 xs (diff v x x M) hd.1 hd.2 hrest
      exact ⟨this.1, by omega⟩

/-- C2 witness: the amended bounds at M = 59, v = 5, Fixed target 30 and
step list 3. -/
theorem c2_witness :
    0 ≤ Resolver.Resolve (.fixed 59 30) 5 ∧
      Resolver.Resolve (.fixed 59 30) 5 ≤ 60 :=
  (c2_wrap_bounds 59 5 (by decide) (by decide)).2.1 30 (by decide) (by decide)

/-! ### C7: the error-channel capacity -/

/-- C7 (corrected): a non-negative requested size below 64 produces
capacity 1024, not the claimed floor of 64. -/
theorem c7_counterexample :
    errChannelCapacity 10 = 1024 ∧ (1024 : Int) ≠ 64 := by
  decide

/-- C7 (amended): the channel capacity is the requested size when it is at
least 64, and 1024 for every smaller request, negative or not. -/
theorem c7_capacity (size : Int) :
    errChannelCapacity size = if 64 ≤ size then size else 1024 := by
  simp only [errChannelCapacity, newRuntimeErrCap, withErrorBufferSize,
    defaultConfig, minBufferSize, defaultBufferSize]
  split_ifs <;> omega

/-! ### C8: the runtime push to the error channel -/

/-- C8 (corrected): with a full channel (capacity 1 already holding one
error) the next iteration blocks on the send; the surplus error is not
dropped and the loop does not proceed. -/
theorem c8_counterexample :
    runLoop 1 ([] : List Nat) [some 7, some 8] = ([7], some [some 8]) ∧
      some [some (8 : Nat)] ≠ (none : Option (List (Option Nat))) := by
  decide

/-- Characterization of the run loop from any channel state below
capacity: the channel collects the first errors in order up to capacity,
and the loop completes all iterations exactly when the errors fit. -/
theorem runLoop_char {E : Type} (cap : Nat) :
    ∀ (inputs : List (Option E)) (q : List E), q.length ≤ cap →
      (runLoop cap q inputs).1 = (q ++ inputs.filterMap id).take cap ∧
        ((runLoop cap q inputs).2 = none ↔
          q.length + (inputs.filterMap id).length ≤ cap) := by
  intro inputs
  induction inputs with
  | nil =>
    intro q hq
    simp only [runLoop, List.filterMap_nil, List.append_nil, List.length_nil]
    exact ⟨(List.take_of_length_le hq).symm, by simpa using hq⟩
  | cons r rest ih =>
    intro q hq
    match r with
    | none =>
      simpa only [runLoop, runStep, List.filterMap_cons, id_eq] using ih q hq
    | some e =>
      simp only [runLoop, runStep, sendErr, List.filterMap_cons, id_eq]
      split_ifs with hlt
      · have := ih (q ++ [e]) (by simp; omega)
        simp only [List.append_assoc, List.singleton_append, List.length_append,
          List.length_singleton] at this
        refine ⟨this.1, ?_⟩
        rw [this.2]
        simp only [List.length_cons]
        omega
      · have hcap : q.length = cap := by omega
        constructor
        · rw [← hcap, List.take_left]
        · simp only [List.length_cons]
          constructor
          · intro h; exact absurd h (by simp)
          · intro h; omega

/-- C8 (amended): in every Run iteration a non-nil selector error is sent to
the channel with a plain blocking send: errors are enqueued in order while
the channel has room and are never dropped; once the channel is full, the
loop blocks on the surplus error instead of proceeding, so exactly the
first cap errors are in the channel and the loop has completed all inputs
precisely when the errors fit the capacity. -/
theorem c8_blocking_send {E : Type} (cap : Nat) (inputs : List (Option E)) :
    (runLoop cap [] inputs).1 = (inputs.filterMap id).take cap ∧
      ((runLoop cap [] inputs).2 = none ↔ (inputs.filterMap id).length ≤ cap) := by
  have := runLoop_char cap inputs [] (by simp)
  simpa using this

/-! ### C9: the at-override keyword check -/

/-- C9 (corrected): the override validator matches keywords byte-for-byte
against the lowercase literals: @WEEKLY is rejected with ErrInvalidFrequency
while @weekly is accepted. -/
theorem c9_counterexample :
    Validate atUpperWeekly = [.invalidFrequency] ∧ Validate atLowerWeekly = [] ∧
      ([VErr.invalidFrequency] : List VErr) ≠ [] := by
  decide

/-- C9 (amended): for a single-child override tree, validation accepts the
keyword exactly when it is one of the seven lowercase literals (so
uppercase variants are rejected), and every other value fails with
ErrInvalidFrequency. -/
theorem c9_override_exact (n : FieldNode) (e : SymNode)
    (ht : n.type = .at) (he : n.edges = [e]) :
    (Validate [n] = [] ↔
      e.value ∈ (["yearly", "annually", "monthly", "weekly", "daily",
        "hourly", "reboot"] : List String)) ∧
      (Validate [n] = [] ∨ Validate [n] = [.invalidFrequency]) := by
  have hval : Validate [n] = validateOverride n := rfl
  have hmem : e.value ∈ (["yearly", "annually", "monthly", "weekly", "daily",
      "hourly", "reboot"] : List String) ↔
      (e.value = "yearly" ∨ e.value = "annually" ∨ e.value = "monthly" ∨
        e.value = "weekly" ∨ e.value = "daily" ∨ e.value = "hourly" ∨
        e.value = "reboot") := by
    simp [List.mem_cons]
  have hov : validateOverride n =
      if e.value = "yearly" ∨ e.value = "annually" ∨ e.value = "monthly" ∨
          e.value = "weekly" ∨ e.value = "daily" ∨ e.value = "hourly" ∨
          e.value = "reboot" then [] else [VErr.invalidFrequency] := by
    simp [validateOverride, ht, he]
  rw [hval, hmem, hov]
  split_ifs with h
  · exact ⟨⟨fun _ => h, fun _ => rfl⟩, Or.inl rfl⟩
  · constructor
    · constructor
      · intro hc
        exact absurd hc (by simp)
      · intro hc
        exact absurd hc h
    · exact Or.inr rfl

/-- C9 witness: the amended characterization applied to the @monthly tree. -/
theorem c9_witness :
    Validate [⟨.at, "@", [⟨.alphaNum, "monthly", []⟩]⟩] = [] ↔
      "monthly" ∈ (["yearly", "annually", "monthly", "weekly", "daily",
        "hourly", "reboot"] : List String) :=
  (c9_override_exact ⟨.at, "@", [⟨.alphaNum, "monthly", []⟩]⟩
    ⟨.alphaNum, "monthly", []⟩ rfl rfl).1

/-! ### C10: the accepted zero-step star field -/

/-- C10 (confirmed): the six-field expression with seconds star-slash-zero
passes validation, compiles the seconds field to a StepSchedule with an
empty steps list, and that resolver returns -1 on every input value. -/
theorem c10_zero_step :
    Validate trStep0 = [] ∧
      (ProcessFunc trStep0).map (fun s => s.sec) = some (.step 59 []) ∧
      ∀ v : Int, Resolver.Resolve (.step 59 []) v = -1 :=
  ⟨by decide, by decide, fun _ => rfl⟩

/-! ### Calendar lemmas for the scheduler -/

/-- Every month length lies between 28 and 31. -/
theorem daysInMonth_bounds (y m : Int) :
    28 ≤ daysInMonth y m ∧ daysInMonth y m ≤ 31 := by
  unfold daysInMonth
  split_ifs <;> omega

/-- The norm helper on a non-negative low component is division with
remainder. -/
theorem norm_nonneg_eq (hi lo base : Int) (hb : 0 < base) (h0 : 0 ≤ lo) :
    norm hi lo base = (hi + lo / base, lo % base) := by
  unfold norm
  rw [if_neg (show ¬ lo < 0 by omega)]
  by_cases h : lo ≥ base
  · rw [if_pos h]
    simp only [Prod.mk.injEq]
    refine ⟨trivial, ?_⟩
    rw [Int.emod_def]
    ring
  · rw [if_neg h]
    rw [Int.ediv_eq_zero_of_lt h0 (by omega), Int.emod_eq_of_lt h0 (by omega)]
    simp

/-- The norm helper is the identity when the low component is in range. -/
theorem norm_small (hi lo base : Int) (hb : 0 < base) (h0 : 0 ≤ lo)
    (h1 : lo < base) : norm hi lo base = (hi, lo) := by
  rw [norm_nonneg_eq hi lo base hb h0,
    Int.ediv_eq_zero_of_lt h0 h1, Int.emod_eq_of_lt h0 h1]
  simp

/-- The day walker is the identity on an in-range day. -/
theorem daysFix_base (fuel : Nat) (y m d : Int) (h1 : 1 ≤ d)
    (h2 : d ≤ daysInMonth y m) : daysFix fuel y m d = (y, m, d) := by
  cases fuel with
  | zero => rfl
  | succ n =>
    simp only [daysFix]
    rw [if_neg (by omega), if_neg (by omega)]

/-- One forward step of the day walker past the end of a month. -/
theorem daysFix_step (fuel : Nat) (y m d : Int) (h : d > daysInMonth y m) :
    daysFix (fuel + 1) y m d =
      (if m = 12 then daysFix fuel (y + 1) 1 (d - daysInMonth y m)
        else daysFix fuel y (m + 1) (d - daysInMonth y m)) := by
  have hd := daysInMonth_bounds y m
  simp only [daysFix]
  rw [if_neg (by omega), if_pos h]
  split_ifs with hm <;> simp [hm]

/-- The time.Date stages recombined: once each normalization step is known,
the construction is the literal civil tuple of the resulting parts. -/
theorem mkDateTime_parts (y mo d hh mi ss y1 m0 mi1 ss1 hh1 mi2 d1 hh2 Y M D : Int)
    (h1 : norm y (mo - 1) 12 = (y1, m0))
    (h2 : norm mi ss 60 = (mi1, ss1))
    (h3 : norm hh mi1 60 = (hh1, mi2))
    (h4 : norm d hh1 24 = (d1, hh2))
    (h5 : daysFix (d1.natAbs + 800) y1 (m0 + 1) d1 = (Y, M, D)) :
    mkDateTime y mo d hh mi ss = ⟨Y, M, D, hh2, mi2, ss1⟩ := by
  simp only [mkDateTime, h1, h2, h3, h4, h5]

/-- A sixty-second component carries into the minute: the two time.Date
calls coincide. -/
theorem mkDateTime_sixty (y mo d hh mm : Int) :
    mkDateTime y mo d hh mm 60 = mkDateTime y mo d hh (mm + 1) 0 := by
  have h1 : norm mm 60 60 = (mm + 1, 0) := by
    rw [norm_nonneg_eq mm 60 60 (by omega) (by omega)]
    norm_num
  have h2 : norm (mm + 1) 0 60 = (mm + 1, 0) :=
    norm_small (mm + 1) 0 60 (by omega) (by omega) (by omega)
  simp only [mkDateTime, h1, h2]

/-- Explicit value of the next minute boundary of a valid instant: the
minute, hour, day, month and year carries in turn. -/
theorem nmb_explicit (t : DateTime) (hv : t.Valid) :
    nextMinuteBoundary t =
      if t.mm ≤ 58 then ⟨t.y, t.m, t.d, t.hh, t.mm + 1, 0⟩
      else if t.hh ≤ 22 then ⟨t.y, t.m, t.d, t.hh + 1, 0, 0⟩
      else if t.d + 1 ≤ daysInMonth t.y t.m then ⟨t.y, t.m, t.d + 1, 0, 0, 0⟩
      else if t.m ≤ 11 then ⟨t.y, t.m + 1, 1, 0, 0, 0⟩
      else ⟨t.y + 1, 1, 1, 0, 0, 0⟩ := by
  obtain ⟨hm1, hm2, hd1, hd2, hh1, hh2, hmm1, hmm2, hs1, hs2⟩ := hv
  have hdb := daysInMonth_bounds t.y t.m
  have hmo : norm t.y (t.m - 1) 12 = (t.y, t.m - 1) :=
    norm_small _ _ _ (by omega) (by omega) (by omega)
  have hmin0 : norm (t.mm + 1) 0 60 = (t.mm + 1, 0) :=
    norm_small _ _ _ (by omega) (by omega) (by omega)
  have hm11 : t.m - 1 + 1 = t.m := by ring
  show mkDateTime t.y t.m t.d t.hh (t.mm + 1) 0 = _
  by_cases c1 : t.mm ≤ 58
  · rw [if_pos c1]
    refine mkDateTime_parts _ _ _ _ _ _ _ _ _ _ _ _ _ _ _ _ _ hmo hmin0
      (norm_small _ _ _ (by omega) (by omega) (by omega))
      (norm_small _ _ _ (by omega) (by omega) (by omega)) ?_
    rw [hm11]
    exact daysFix_base _ _ _ _ (by omega) (by omega)
  · have h60 : t.mm + 1 = 60 := by omega
    have hsixty : norm t.hh (t.mm + 1) 60 = (t.hh + 1, 0) := by
      rw [h60, norm_nonneg_eq t.hh 60 60 (by omega) (by omega)]
      norm_num
    rw [if_neg c1]
    by_cases c2 : t.hh ≤ 22
    · rw [if_pos c2]
      refine mkDateTime_parts _ _ _ _ _ _ _ _ _ _ _ _ _ _ _ _ _ hmo hmin0 hsixty
        (norm_small _ _ _ (by omega) (by omega) (by omega)) ?_
      rw [hm11]
      exact daysFix_base _ _ _ _ (by omega) (by omega)
    · have h24 : t.hh + 1 = 24 := by omega
      have hday : norm t.d (t.hh + 1) 24 = (t.d + 1, 0) := by
        rw [h24, norm_nonneg_eq t.d 24 24 (by omega) (by omega)]
        norm_num
      rw [if_neg c2]
      by_cases c3 : t.d + 1 ≤ daysInMonth t.y t.m
      · rw [if_pos c3]
        refine mkDateTime_parts _ _ _ _ _ _ _ _ _ _ _ _ _ _ _ _ _ hmo hmin0 hsixty
          hday ?_
        rw [hm11]
        exact daysFix_base _ _ _ _ (by omega) (by omega)
      · rw [if_neg c3]
        have hfuel : (t.d + 1).natAbs + 800 = ((t.d + 1).natAbs + 799) + 1 := by
          omega
        by_cases c4 : t.m ≤ 11
        · rw [if_pos c4]
          refine mkDateTime_parts _ _ _ _ _ _ _ _ _ _ _ _ _ _ _ _ _ hmo hmin0 hsixty
            hday ?_
          rw [hm11, hfuel, daysFix_step _ _ _ _ (by omega), if_neg (by omega)]
          have hdb2 := daysInMonth_bounds t.y (t.m + 1)
          rw [show t.d + 1 - daysInMonth t.y t.m = 1 from by omega]
          exact daysFix_base _ _ _ _ (by omega) (by omega)
        · rw [if_neg c4]
          refine mkDateTime_parts _ _ _ _ _ _ _ _ _ _ _ _ _ _ _ _ _ hmo hmin0 hsixty
            hday ?_
          rw [hm11, hfuel, daysFix_step _ _ _ _ (by omega), if_pos (by omega)]
          have hdb2 := daysInMonth_bounds (t.y + 1) 1
          rw [show t.d + 1 - daysInMonth t.y t.m = 1 from by omega]
          exact daysFix_base _ _ _ _ (by omega) (by omega)

/-- A valid instant lies strictly before its next minute boundary. -/
theorem lt_nmb (t : DateTime) (hv : t.Valid) : dtLt t (nextMinuteBoundary t) := by
  have hb := daysInMonth_bounds t.y t.m
  obtain ⟨hm1, hm2, hd1, hd2, hh1, hh2, hmm1, hmm2, hs1, hs2⟩ := hv
  rw [nmb_explicit t ⟨hm1, hm2, hd1, hd2, hh1, hh2, hmm1, hmm2, hs1, hs2⟩]
  unfold dtLt
  split_ifs <;> simp <;> omega

/-- The next minute boundary depends only on the minute and above. -/
theorem nmb_congr (T1 T2 : DateTime) (hy : T2.y = T1.y) (hm : T2.m = T1.m)
    (hd : T2.d = T1.d) (hh : T2.hh = T1.hh) (hmm : T2.mm = T1.mm) :
    nextMinuteBoundary T2 = nextMinuteBoundary T1 := by
  unfold nextMinuteBoundary
  rw [hy, hm, hd, hh, hmm]

/-- Two valid instants with the second strictly between the first and its
next minute boundary share the same minute (and all higher components). -/
theorem nmb_sandwich (T1 T2 : DateTime) (h1 : T1.Valid) (h2 : T2.Valid)
    (hlt : dtLt T1 T2) (hlt2 : dtLt T2 (nextMinuteBoundary T1)) :
    T2.y = T1.y ∧ T2.m = T1.m ∧ T2.d = T1.d ∧ T2.hh = T1.hh ∧ T2.mm = T1.mm := by
  rw [nmb_explicit T1 h1] at hlt2
  obtain ⟨am1, am2, ad1, ad2, ah1, ah2, amm1, amm2, as1, as2⟩ := h1
  obtain ⟨bm1, bm2, bd1, bd2, bh1, bh2, bmm1, bmm2, bs1, bs2⟩ := h2
  have hdb1 := daysInMonth_bounds T1.y T1.m
  split_ifs at hlt2 with c1 c2 c3 c4
  · unfold dtLt at hlt hlt2
    simp at hlt2
    omega
  · unfold dtLt at hlt hlt2
    simp at hlt2
    omega
  · unfold dtLt at hlt hlt2
    simp at hlt2
    omega
  · have hym : T2.y = T1.y ∧ T2.m = T1.m := by
      unfold dtLt at hlt hlt2
      simp at hlt2
      omega
    have hdim : daysInMonth T2.y T2.m = daysInMonth T1.y T1.m := by
      rw [hym.1, hym.2]
    unfold dtLt at hlt hlt2
    simp at hlt2
    omega
  · have hym : T2.y = T1.y ∧ T2.m = T1.m := by
      unfold dtLt at hlt hlt2
      simp at hlt2
      omega
    have hdim : daysInMonth T2.y T2.m = daysInMonth T1.y T1.m := by
      rw [hym.1, hym.2]
    unfold dtLt at hlt hlt2
    simp at hlt2
    omega

/-- The next-fire computation on a schedule whose resolvers are all
Everytime over the implicit fixed seconds: the per-field distances vanish,
the seconds distance plus the extra implicit-seconds second always
completes the minute, and the weekday branch is skipped. -/
theorem next_allstar (S : Schedule) (hsec : S.sec = .fixed 59 0)
    (hmin : S.min = .everytime) (hhr : S.hour = .everytime)
    (hdm : S.dayMonth = .everytime) (hmo : S.month = .everytime)
    (hdw : S.dayWeek = .everytime) (t : DateTime) (hss : 0 ≤ t.ss) :
    Next S t = nextMinuteBoundary t := by
  have hdiff : diff (t.ss + 1) 0 0 59 = 59 - (t.ss + 1) := by
    unfold diff
    rw [if_pos (by omega)]
    ring
  simp only [Next, hsec, hmin, hhr, hdm, hmo, hdw, Resolver.Resolve,
    fixedSeconds, eq_self_iff_true, if_true, add_zero, hdiff]
  rw [show t.ss + 1 + (59 - (t.ss + 1) + 1) = 60 from by ring]
  exact mkDateTime_sixty t.y t.m t.d t.hh t.mm

/-- A five-field schedule always receives the implicit seconds resolver. -/
theorem process5_sec (a b c d e : FieldNode) (S : Schedule)
    (hp : ProcessFunc [a, b, c, d, e] = some S) : S.sec = .fixed 59 0 := by
  unfold ProcessFunc at hp
  split at hp
  · exact absurd hp (by simp)
  · simp only [Option.some.injEq] at hp
    rw [← hp]
    unfold fixSunday
    split <;> rfl

/-! ### C3: five-field all-star schedules fire at the next minute boundary -/

/-- C3 (confirmed): a valid five-field expression whose field resolvers are
all Everytime compiles with the implicit seconds resolver Fixed{59, 0}, and
Next lands exactly on the top of the next minute, strictly after the input
instant. -/
theorem c3_implicit_seconds (a b c d e : FieldNode) (S : Schedule)
    (hp : ProcessFunc [a, b, c, d, e] = some S)
    (hmin : S.min = .everytime) (hhr : S.hour = .everytime)
    (hdm : S.dayMonth = .everytime) (hmo : S.month = .everytime)
    (hdw : S.dayWeek = .everytime) (t : DateTime) (hv : t.Valid) :
    S.sec = .fixed 59 0 ∧ Next S t = nextMinuteBoundary t ∧
      dtLt t (nextMinuteBoundary t) := by
  have hsec : S.sec = .fixed 59 0 := process5_sec a b c d e S hp
  have hss : 0 ≤ t.ss := hv.2.2.2.2.2.2.2.2.1
  exact ⟨hsec, next_allstar S hsec hmin hhr hdm hmo hdw t hss, lt_nmb t hv⟩

/-- C3 witness: the all-star five-field schedule at 2023-10-30 10:12:43. -/
theorem c3_witness : Next sStar dt1 = nextMinuteBoundary dt1 :=
  (c3_implicit_seconds starNode starNode starNode starNode starNode sStar
    (by decide) rfl rfl rfl rfl rfl dt1 (by decide)).2.1

/-! ### C4: constancy of the next-fire computation -/

/-- C4 (corrected): at T2 equal to the fire instant next(T1) the claim
fails: with the all-star five-field schedule and T1 = 10:12:43, next(T1) is
10:13:00, yet next(10:13:00) is 10:14:00, so T1 < T2 ≤ next(T1) does not
force next(T2) = next(T1). -/
theorem c4_counterexample :
    ProcessFunc allStar5 = some sStar ∧
      dtLt dt1 dt2 ∧ dtLe dt2 (Next sStar dt1) ∧
      Next sStar dt2 ≠ Next sStar dt1 := by
  decide

/-- C4 (amended): for the schedule compiled from a five-field all-Everytime
expression, the next-fire computation is constant on the open interval
between T1 and its fire instant: for all valid T1 < T2 < next(T1),
next(T2) = next(T1).  (At T2 = next(T1) the computation already returns the
following boundary, and for schedules with other resolvers even interior
constancy can fail.) -/
theorem c4_next_constant (a b c d e : FieldNode) (S : Schedule)
    (hp : ProcessFunc [a, b, c, d, e] = some S)
    (hmin : S.min = .everytime) (hhr : S.hour = .everytime)
    (hdm : S.dayMonth = .everytime) (hmo : S.month = .everytime)
    (hdw : S.dayWeek = .everytime) (T1 T2 : DateTime)
    (h1 : T1.Valid) (h2 : T2.Valid)
    (hlt : dtLt T1 T2) (hlt2 : dtLt T2 (Next S T1)) :
    Next S T2 = Next S T1 := by
  have hsec : S.sec = .fixed 59 0 := process5_sec a b c d e S hp
  have hn1 : Next S T1 = nextMinuteBoundary T1 :=
    next_allstar S hsec hmin hhr hdm hmo hdw T1 h1.2.2.2.2.2.2.2.2.1
  have hn2 : Next S T2 = nextMinuteBoundary T2 :=
    next_allstar S hsec hmin hhr hdm hmo hdw T2 h2.2.2.2.2.2.2.2.2.1
  rw [hn1] at hlt2
  have hs := nmb_sandwich T1 T2 h1 h2 hlt hlt2
  rw [hn1, hn2]
  exact nmb_congr T1 T2 hs.1 hs.2.1 hs.2.2.1 hs.2.2.2.1 hs.2.2.2.2

/-- C4 witness: 10:12:43 and 10:12:50 share the fire instant 10:13:00. -/
theorem c4_witness : Next sStar dt3 = Next sStar dt1 :=
  c4_next_constant starNode starNode starNode starNode starNode sStar
    (by decide) rfl rfl rfl rfl rfl dt1 dt3 (by decide) (by decide)
    (by decide) (by decide)

/-! ### C6: the selector cohort -/

/-- The running minimum of the selector fold never exceeds its seed. -/
theorem foldl_min_le {α : Type} (nf : α → Int) :
    ∀ (l : List α) (m : Int), l.foldl (fun a e => Min.min a (nf e)) m ≤ m := by
  intro l
  induction l with
  | nil => intro m; simp
  | cons x xs ih =>
    intro m
    simp only [List.foldl_cons]
    exact le_trans (ih (Min.min m (nf x))) (min_le_left _ _)

/-- Characterization of the Selector.next loop: from a seeded minimum and
cohort, the result keeps the seed cohort exactly when no later distance
beats the seed, followed by every element achieving the final minimum. -/
theorem selGo_char {α : Type} (nf : α → Int) :
    ∀ (rest : List α) (m : Int) (acc : List α),
      selGo nf rest m acc =
        (if rest.foldl (fun a e => Min.min a (nf e)) m = m then acc else []) ++
          rest.filter (fun e => nf e = rest.foldl (fun a e => Min.min a (nf e)) m) := by
  intro rest
  induction rest with
  | nil => intro m acc; simp [selGo]
  | cons e rest2 ih =>
    intro m acc
    have hle := foldl_min_le nf rest2
    have hfold : (e :: rest2).foldl (fun a x => Min.min a (nf x)) m
        = rest2.foldl (fun a x => Min.min a (nf x)) (Min.min m (nf e)) := by
      simp [List.foldl_cons]
    rw [hfold, List.filter_cons]
    by_cases h1 : nf e = m
    · have hmin : Min.min m (nf e) = m := by omega
      rw [hmin]
      have hsel : selGo nf (e :: rest2) m acc = selGo nf rest2 m (acc ++ [e]) := by
        simp [selGo, h1]
      rw [hsel, ih m (acc ++ [e])]
      by_cases hf : rest2.foldl (fun a x => Min.min a (nf x)) m = m
      · have hdec : decide (nf e = rest2.foldl (fun a x => Min.min a (nf x)) m) = true := by
          simp only [decide_eq_true_eq]; omega
        rw [if_pos hf, if_pos hf, if_pos hdec]
        simp
      · have hdec : ¬ decide (nf e = rest2.foldl (fun a x => Min.min a (nf x)) m) = true := by
          simp only [decide_eq_true_eq]; omega
        rw [if_neg hf, if_neg hf, if_neg hdec]
    · by_cases h2 : nf e < m
      · have hmin : Min.min m (nf e) = nf e := by omega
        rw [hmin]
        have hsel : selGo nf (e :: rest2) m acc = selGo nf rest2 (nf e) [e] := by
          simp only [selGo]
          rw [if_neg h1, if_pos h2]
        rw [hsel, ih (nf e) [e]]
        have hne : ¬ rest2.foldl (fun a x => Min.min a (nf x)) (nf e) = m := by
          have := hle (nf e); omega
        rw [if_neg hne]
        by_cases hf : rest2.foldl (fun a x => Min.min a (nf x)) (nf e) = nf e
        · have hdec : decide (nf e = rest2.foldl (fun a x => Min.min a (nf x)) (nf e)) = true := by
            simp only [decide_eq_true_eq]; omega
          rw [if_pos hf, if_pos hdec]
          simp
        · have hdec : ¬ decide (nf e = rest2.foldl (fun a x => Min.min a (nf x)) (nf e)) = true := by
            simp only [decide_eq_true_eq]; omega
          rw [if_neg hf, if_neg hdec]
      · have hmin : Min.min m (nf e) = m := by omega
        rw [hmin]
        have hsel : selGo nf (e :: rest2) m acc = selGo nf rest2 m acc := by
          simp only [selGo]
          rw [if_neg h1, if_neg (by omega)]
        rw [hsel, ih m acc]
        have hdec : ¬ decide (nf e = rest2.foldl (fun a x => Min.min a (nf x)) m) = true := by
          have := hle m
          simp only [decide_eq_true_eq]; omega
        rw [if_neg hdec]

/-- C6 (confirmed): on a non-empty executor list the cohort computation of
Selector.next returns exactly the executors whose next-fire distance is the
minimum over the list, as the order-preserving filter, so ties are broken
in registration order. -/
theorem c6_cohort {α : Type} (nf : α → Int) (hd : α) (tl : List α) :
    selNext nf (hd :: tl) =
      (hd :: tl).filter (fun e => nf e = listMinBy nf hd tl) := by
  have hle : listMinBy nf hd tl ≤ nf hd := foldl_min_le nf tl (nf hd)
  have hsel : selNext nf (hd :: tl) = selGo nf tl (nf hd) [hd] := rfl
  rw [hsel, selGo_char nf tl (nf hd) [hd]]
  unfold listMinBy
  simp only [List.filter_cons, decide_eq_true_eq]
  by_cases hf : tl.foldl (fun a e => Min.min a (nf e)) (nf hd) = nf hd
  · rw [if_pos hf, if_pos (by omega)]
    simp
  · rw [if_neg hf, if_neg (by omega)]
    simp

/-! ### Sorting and step-list lemmas for C5 -/

/-- sortInt sorts. -/
theorem sortInt_sorted (l : List Int) : (sortInt l).Sorted (· ≤ ·) :=
  List.sorted_insertionSort _ l

/-- sortInt preserves membership. -/
theorem mem_sortInt (l : List Int) (x : Int) : x ∈ sortInt l ↔ x ∈ l :=
  List.mem_insertionSort _

/-- A strictly sorted list is weakly sorted. -/
theorem sorted_lt_le {l : List Int} (h : l.Sorted (· < ·)) : l.Sorted (· ≤ ·) :=
  h.imp (fun hab => le_of_lt hab)

/-- A strictly sorted list has no duplicates. -/
theorem sorted_lt_nodup {l : List Int} (h : l.Sorted (· < ·)) : l.Nodup :=
  h.imp (fun hab => ne_of_lt hab)

/-- Elements of the compacted list come from the original. -/
theorem mem_compact : ∀ (l : List Int) (x : Int), x ∈ compact l → x ∈ l := by
  intro l
  induction l with
  | nil => intro x hx; simpa [compact] using hx
  | cons a t ih =>
    intro x hx
    cases t with
    | nil => simpa [compact] using hx
    | cons b t2 =>
      simp only [compact] at hx
      split_ifs at hx with hab
      · exact List.mem_cons_of_mem a (ih x hx)
      · rcases List.mem_cons.mp hx with rfl | hx2
        · exact List.mem_cons_self _ _
        · exact List.mem_cons_of_mem a (ih x hx2)

/-- Compacting a weakly sorted list yields a strictly sorted list. -/
theorem compact_sorted : ∀ (l : List Int), l.Sorted (· ≤ ·) →
    (compact l).Sorted (· < ·) := by
  intro l
  induction l with
  | nil => intro h; simp [compact]
  | cons a t ih =>
    intro hs
    cases t with
    | nil => simp [compact]
    | cons b t2 =>
      rw [List.sorted_cons] at hs
      simp only [compact]
      split_ifs with hab
      · exact ih hs.2
      · rw [List.sorted_cons]
        refine ⟨fun x hx => ?_, ih hs.2⟩
        have hxm := mem_compact (b :: t2) x hx
        have hb : a ≤ b := hs.1 b (List.mem_cons_self _ _)
        rcases List.mem_cons.mp hxm with rfl | hx2
        · omega
        · have hbs := hs.2
          rw [List.sorted_cons] at hbs
          have := hbs.1 x hx2
          omega

/-- The step-collection loop produces a strictly increasing list bounded
below by its start. -/
theorem valueRangeGo_good (freq tov : Int) (hf : 1 ≤ freq) :
    ∀ (fuel : Nat) (i : Int), (valueRangeGo freq tov i fuel).Sorted (· < ·) ∧
      ∀ x ∈ valueRangeGo freq tov i fuel, i ≤ x := by
  intro fuel
  induction fuel with
  | zero => intro i; simp [valueRangeGo]
  | succ n ih =>
    intro i
    simp only [valueRangeGo]
    split_ifs with h
    · constructor
      · rw [List.sorted_cons]
        refine ⟨fun x hx => ?_, (ih (i + freq)).1⟩
        have := (ih (i + freq)).2 x hx
        omega
      · intro x hx
        rcases List.mem_cons.mp hx with rfl | hx2
        · omega
        · have := (ih (i + freq)).2 x hx2
          omega
    · simp

/-- With a non-negative frequency, newValueRange is sorted without
duplicates (zero frequency yields the empty list). -/
theorem newValueRange_good (lo hi k : Int) (hk : 0 ≤ k) :
    (newValueRange lo hi k).Sorted (· ≤ ·) ∧ (newValueRange lo hi k).Nodup := by
  unfold newValueRange
  split_ifs with h
  · simp
  · have hk1 : 1 ≤ k := by omega
    have := (valueRangeGo_good k hi hk1 ((hi - lo).toNat + 1) lo).1
    exact ⟨sorted_lt_le this, sorted_lt_nodup this⟩

/-- Membership from an index hit. -/
theorem mem_of_getElemQ (l : List Int) (i : Nat) (a : Int)
    (h : l[i]? = some a) : a ∈ l := by
  obtain ⟨hlt, he⟩ := List.getElem?_eq_some.mp h
  exact he ▸ List.getElem_mem hlt

/-- Index hits in a duplicate-free list are unique. -/
theorem nodup_get_inj (l : List Int) (h : l.Nodup) (i j : Nat)
    (hi : i < l.length) (hj : j < l.length) (he : l[i] = l[j]) : i = j := by
  have hinj := List.nodup_iff_injective_getElem.mp h
  have : (⟨i, hi⟩ : Fin l.length) = ⟨j, hj⟩ := hinj he
  simpa using congrArg Fin.val this

/-- Replacing the unique 7 of a duplicate-free list with 0 removes every 7. -/
theorem not_mem_set_of_nodup (l : List Int) (i : Nat) (hnd : l.Nodup)
    (h7 : l[i]? = some 7) : (7 : Int) ∉ l.set i 0 := by
  intro hmem
  obtain ⟨hi, hie⟩ := List.getElem?_eq_some.mp h7
  obtain ⟨j, hj, hje⟩ := List.mem_iff_getElem.mp hmem
  rw [List.getElem_set] at hje
  by_cases hij : i = j
  · rw [if_pos hij] at hje
    exact absurd hje (by decide)
  · rw [if_neg hij] at hje
    have hjl : j < l.length := by simpa using hj
    have := nodup_get_inj l hnd i j hi hjl (by rw [hie, hje])
    exact hij this

/-- If no 7 is present, the weekday-normalization scan is the identity. -/
theorem sundayGo_no7 : ∀ (fuel : Nat) (l : List Int) (i : Nat),
    (7 : Int) ∉ l → sundayGo l i fuel = l := by
  intro fuel
  induction fuel with
  | zero => intro l i _; rfl
  | succ n ih =>
    intro l i h
    simp only [sundayGo]
    have h7 : ¬ l[i]? = some 7 := fun hc => h (mem_of_getElemQ l i 7 hc)
    rw [if_neg h7]
    exact ih l (i + 1) h

/-- The weekday-normalization scan of a sorted duplicate-free list stays
sorted, and removes every 7 once it has scanned the whole list. -/
theorem sundayGo_good : ∀ (fuel : Nat) (l : List Int) (i : Nat),
    l.Sorted (· ≤ ·) → l.Nodup →
    (sundayGo l i fuel).Sorted (· ≤ ·) ∧
      ((∀ j, j < i → l[j]? ≠ some 7) → i + fuel = l.length →
        (7 : Int) ∉ sundayGo l i fuel) := by
  intro fuel
  induction fuel with
  | zero =>
    intro l i hs hnd
    refine ⟨hs, fun hbelow hlen hmem => ?_⟩
    have hmem2 : (7 : Int) ∈ l := by simpa [sundayGo] using hmem
    obtain ⟨j, hj, hje⟩ := List.mem_iff_getElem.mp hmem2
    exact hbelow j (by omega) (by rw [List.getElem?_eq_getElem hj, hje])
  | succ n ih =>
    intro l i hs hnd
    simp only [sundayGo]
    by_cases h7 : l[i]? = some 7
    · rw [if_pos h7]
      have hset : (7 : Int) ∉ sortInt (l.set i 0) := by
        intro hc
        exact not_mem_set_of_nodup l i hnd h7 ((mem_sortInt _ _).mp hc)
      rw [sundayGo_no7 n _ (i + 1) hset]
      exact ⟨sortInt_sorted _, fun _ _ => hset⟩
    · rw [if_neg h7]
      have := ih l (i + 1) hs hnd
      refine ⟨this.1, fun hbelow hlen => this.2 (fun j hj => ?_) (by omega)⟩
      by_cases hji : j = i
      · rw [hji]; exact h7
      · exact hbelow j (by omega)

/-- The full weekday-normalization loop on a sorted duplicate-free list. -/
theorem sundayLoop_good (l : List Int) (hs : l.Sorted (· ≤ ·)) (hnd : l.Nodup) :
    (sundayLoop l).Sorted (· ≤ ·) ∧ (7 : Int) ∉ sundayLoop l := by
  have := sundayGo_good l.length l 0 hs hnd
  exact ⟨this.1, this.2 (fun j hj => absurd hj (by omega)) (by omega)⟩

/-! ### Validator extraction lemmas for C5 -/

/-- A value whose first character is not a digit never parses as a number. -/
theorem atoi_none_of_alpha (v : String) (c : Char) (cs : List Char)
    (hdata : v.data = c :: cs) (hc : ¬ ('0' ≤ c ∧ c ≤ '9')) : atoi v = none := by
  unfold atoi
  rw [hdata]
  simp [digitsGo, digitVal, hc]

/-- A clean validateNumber bounds every successful parse of the value. -/
theorem validateNumber_bound (lo hi : Int) :
    ∀ v k, validateNumber v lo hi = [] → atoi v = some k → lo ≤ k ∧ k ≤ hi := by
  intro v k hv ha
  unfold validateNumber at hv
  simp only [ha] at hv
  by_cases h : k < lo ∨ k > hi
  · rw [if_pos h] at hv
    exact absurd hv (by simp)
  · omega

/-- A clean validateAlpha bounds every successful parse of the value (name
values never parse). -/
theorem validateAlpha_bound (lo hi : Int) (vl : List String) :
    ∀ v k, validateAlpha v lo hi vl = [] → atoi v = some k → lo ≤ k ∧ k ≤ hi := by
  intro v k hv ha
  unfold validateAlpha at hv
  rcases hdata : v.data with _ | ⟨c, cs⟩
  · simp only [hdata] at hv
    exact absurd hv (by simp)
  · simp only [hdata] at hv
    by_cases hc : '0' ≤ c ∧ c ≤ '9'
    · rw [if_pos hc] at hv
      exact validateNumber_bound lo hi v k hv ha
    · rw [atoi_none_of_alpha v c cs hdata hc] at ha
      exact absurd ha (by simp)

/-- A clean validateSymbols over a single edge certifies that edge. -/
theorem validateSymbols_singleton (e : SymNode) (maxE : Nat) (vs : List Token)
    (vf : String → List VErr) (h : validateSymbols [e] maxE vs vf = []) :
    checkSymbolEdge vs vf e = [] := by
  unfold validateSymbols at h
  rw [if_neg (by simp)] at h
  by_cases hlen : ([e] : List SymNode).length > maxE
  · rw [if_pos hlen] at h
    exact absurd h (by simp)
  · rw [if_neg hlen] at h
    simp only [List.map_cons, List.map_nil, firstErr] at h
    by_cases hx : checkSymbolEdge vs vf e = []
    · exact hx
    · rw [if_neg hx] at h
      exact h

/-- A certified slash edge with one value leaf has a clean value check. -/
theorem checkSymbolEdge_slash (e : SymNode) (c : LeafNode)
    (vf : String → List VErr) (het : e.type = .slash) (hes : e.edges = [c])
    (h : checkSymbolEdge [.slash] vf e = []) : vf c.value = [] := by
  unfold checkSymbolEdge at h
  rw [if_pos (by simp [het])] at h
  simp only [hes] at h
  by_cases hc : c.type = .error
  · rw [if_pos hc] at h
    exact absurd h (by simp)
  · rw [if_neg hc] at h
    exact h

/-- Shape of a star field that compiles to a StepSchedule. -/
theorem processStar_step_shape (n : FieldNode) (lo hi M : Int) (s : List Int)
    (h : processStar n lo hi = .step M s) :
    ∃ e c k, n.edges = [e] ∧ e.edges = [c] ∧ e.type = .slash ∧
      atoi c.value = some k ∧ M = hi ∧ s = newValueRange lo hi k := by
  rcases hne : n.edges with _ | ⟨e, rest⟩
  · simp [processStar, hne] at h
  · rcases hrest : rest with _ | ⟨e2, rest2⟩
    · rcases hes : e.edges with _ | ⟨c, crest⟩
      · simp [processStar, hne, hrest, hes] at h
      · rcases hcrest : crest with _ | ⟨c2, crest2⟩
        · subst hrest
          subst hcrest
          simp only [processStar, hne, hes] at h
          by_cases het : e.type = Token.slash
          · rw [if_pos het] at h
            rcases ha : atoi c.value with _ | k
            · simp only [ha] at h
              exact absurd h (by simp)
            · simp only [ha] at h
              injection h with h1 h2
              exact ⟨e, c, k, rfl, hes, het, ha, h1.symm, h2.symm⟩
          · rw [if_neg het] at h
            exact absurd h (by simp)
        · simp [processStar, hne, hrest, hes, hcrest] at h
    · simp [processStar, hne, hrest] at h

/-- A validated star field compiling to a StepSchedule has sorted
duplicate-free steps. -/
theorem processStar_sorted (n : FieldNode) (lo hi M : Int) (s : List Int)
    (vf : String → List VErr)
    (hbound : ∀ v k, vf v = [] → atoi v = some k → lo ≤ k ∧ k ≤ hi)
    (hlo : 0 ≤ lo)
    (hval : validateSymbols n.edges 1 [.slash] vf = [])
    (hstep : processStar n lo hi = .step M s) :
    s.Sorted (· ≤ ·) ∧ s.Nodup := by
  obtain ⟨e, c, k, hne, hes, het, ha, hM, hs⟩ :=
    processStar_step_shape n lo hi M s hstep
  rw [hne] at hval
  have hc := checkSymbolEdge_slash e c vf het hes
    (validateSymbols_singleton e 1 [.slash] vf hval)
  have hk := hbound c.value k hc ha
  rw [hs]
  exact newValueRange_good lo hi k (by omega)

/-- Any alphanumeric field compiling to a StepSchedule has sorted
duplicate-free steps: the processor sorts and compacts the symbol walk. -/
theorem processAlphaNum_sorted (n : FieldNode) (hi M : Int) (vl : List String)
    (s : List Int) (hstep : processAlphaNum n hi vl = .step M s) :
    s.Sorted (· ≤ ·) ∧ s.Nodup := by
  unfold processAlphaNum at hstep
  rcases hne : n.edges with _ | ⟨e, rest⟩
  · simp only [hne] at hstep
    exact absurd hstep (by simp)
  · simp only [hne] at hstep
    by_cases hd : rest = [] ∧ e.type = Token.dash
    · rw [if_pos hd] at hstep
      exact absurd hstep (by simp)
    · rw [if_neg hd] at hstep
      injection hstep with h1 h2
      have hsc := compact_sorted _
        (sortInt_sorted (walkEdges vl hi (e :: rest) (getValue n.value vl) true []))
      rw [← h2]
      exact ⟨sorted_lt_le hsc, sorted_lt_nodup hsc⟩

/-- A validated field (of either node type) compiling to a StepSchedule has
sorted duplicate-free steps. -/
theorem build_step_good (n : FieldNode) (maxE : Nat) (lo hi M : Int)
    (vl : List String) (s : List Int) (vf : String → List VErr)
    (hbound : ∀ v k, vf v = [] → atoi v = some k → lo ≤ k ∧ k ≤ hi)
    (hlo : 0 ≤ lo)
    (hval : validateField n maxE lo hi vf = [])
    (hstep : (match n.type with
      | Token.star => processStar n lo hi
      | _ => processAlphaNum n hi vl) = .step M s) :
    s.Sorted (· ≤ ·) ∧ s.Nodup := by
  cases ht : n.type <;> rw [ht] at hstep
  case star =>
    have hvs : validateSymbols n.edges 1 [.slash] vf = [] := by
      unfold validateField at hval
      rw [ht] at hval
      exact hval
    exact processStar_sorted n lo hi M s vf hbound hlo hvs hstep
  all_goals exact processAlphaNum_sorted n hi M vl s hstep

/-- The sec through month fields of the weekday normalization. -/
theorem fixSunday_fields (s : Schedule) :
    (fixSunday s).sec = s.sec ∧ (fixSunday s).min = s.min ∧
      (fixSunday s).hour = s.hour ∧ (fixSunday s).dayMonth = s.dayMonth ∧
      (fixSunday s).month = s.month := by
  unfold fixSunday
  split <;> simp

/-- The weekday normalization on a StepSchedule day-of-week. -/
theorem fixSunday_dayWeek_step (s0 : Schedule) (M : Int) (st : List Int)
    (h : s0.dayWeek = .step M st) :
    (fixSunday s0).dayWeek = .step M (sundayLoop st) := by
  unfold fixSunday
  split
  · next m steps heq =>
    rw [h] at heq
    cases heq
    simp
  · next hne => exact absurd h (by intro hc; exact hne M st hc)

/-- The weekday normalization away from a StepSchedule day-of-week. -/
theorem fixSunday_dayWeek_other (s0 : Schedule)
    (h : ∀ M st, s0.dayWeek ≠ .step M st) :
    (fixSunday s0).dayWeek = s0.dayWeek := by
  unfold fixSunday
  split
  · next m steps heq => exact absurd heq (h m steps)
  · rfl

/-- No resolver of an at-override schedule is a StepSchedule. -/
theorem buildException_no_step (n : FieldNode) (M : Int) (s : List Int) :
    (buildException n).sec ≠ .step M s ∧ (buildException n).min ≠ .step M s ∧
      (buildException n).hour ≠ .step M s ∧
      (buildException n).dayMonth ≠ .step M s ∧
      (buildException n).month ≠ .step M s ∧
      (buildException n).dayWeek ≠ .step M s := by
  unfold buildException defaultSchedule
  split_ifs with h
  · simp
  · rcases hne : n.edges with _ | ⟨e, rest⟩ <;> simp only []
    · simp
    · split_ifs <;> simp

/-! ### C5: the step-list invariants of parsed schedules -/

/-- C5 (corrected): a parsed step list can hold duplicates (the weekday
0,7 normalization rewrites 7 to 0 next to an existing 0), can be empty
(a zero step value), and can hold out-of-range elements (the validator
drops the range error of a bare field value when its symbols are clean). -/
theorem c5_counterexample :
    (ProcessFunc tr07).map (fun s => s.dayWeek) = some (.step 7 [0, 0]) ∧
      ¬ ([0, 0] : List Int).Nodup ∧
      (ProcessFunc trMin0).map (fun s => s.min) = some (.step 59 []) ∧
      (ProcessFunc tr1000).map (fun s => s.min) = some (.step 59 [5, 1000]) ∧
      ¬ (∀ x ∈ ([5, 1000] : List Int), x ≤ 59) := by
  decide

/-- C5 (amended): in every Schedule produced by parsing a valid cron
expression, every Step resolver's steps list is sorted in ascending order,
and in the day-of-week field no 7 remains after the Sunday normalization.
(Non-emptiness, duplicate-freeness and the [0, max] element range do not
hold; see the counterexample.) -/
theorem c5_step_lists (tr : List FieldNode) (S : Schedule)
    (hp : ProcessFunc tr = some S) :
    (∀ r ∈ [S.sec, S.min, S.hour, S.dayMonth, S.month, S.dayWeek],
      ∀ M s, r = .step M s → s.Sorted (· ≤ ·)) ∧
      (∀ M s, S.dayWeek = .step M s → (7 : Int) ∉ s) := by
  unfold ProcessFunc at hp
  by_cases hve : Validate tr ≠ []
  · rw [if_pos hve] at hp
    exact absurd hp (by simp)
  rw [if_neg hve] at hp
  have hv : Validate tr = [] := not_not.mp hve
  rcases tr with _ | ⟨a, _ | ⟨b, _ | ⟨c, _ | ⟨d, _ | ⟨e, _ | ⟨f, _ | ⟨g, rest⟩⟩⟩⟩⟩⟩⟩
  · simp at hp
  · -- override
    simp only [Option.some.injEq] at hp
    subst hp
    constructor
    · intro r hr M s hstep
      simp only [List.mem_cons, List.not_mem_nil, or_false] at hr
      have hno := buildException_no_step a M s
      rcases hr with rfl | rfl | rfl | rfl | rfl | rfl
      · exact absurd hstep hno.1
      · exact absurd hstep hno.2.1
      · exact absurd hstep hno.2.2.1
      · exact absurd hstep hno.2.2.2.1
      · exact absurd hstep hno.2.2.2.2.1
      · exact absurd hstep hno.2.2.2.2.2
    · intro M s hstep
      exact absurd hstep (buildException_no_step a M s).2.2.2.2.2
  · simp at hp
  · simp at hp
  · simp at hp
  · -- five fields
    simp only [Option.some.injEq] at hp
    have hv5 : validateMinutesF a = [] ∧ validateHoursF b = [] ∧
        validateMonthDaysF c = [] ∧ validateMonthsF d = [] ∧
        validateWeekDaysF e = [] := by
      have hv2 : validateMinutesF a ++ validateHoursF b ++ validateMonthDaysF c ++
          validateMonthsF d ++ validateWeekDaysF e = [] := hv
      simp only [List.append_eq_nil] at hv2
      tauto
    obtain ⟨hva, hvb, hvc, hvd, hvee⟩ := hv5
    subst hp
    set S0 : Schedule := ⟨.fixed 59 0, buildMinutes a, buildHours b,
      buildMonthDays c, buildMonths d, buildWeekdays e⟩ with hS0
    have hsortMin : ∀ M s, buildMinutes a = .step M s → s.Sorted (· ≤ ·) ∧ s.Nodup :=
      fun M s hstep => build_step_good a 60 0 59 M [] s _
        (validateNumber_bound 0 59) (by omega) hva hstep
    have hsortHour : ∀ M s, buildHours b = .step M s → s.Sorted (· ≤ ·) ∧ s.Nodup :=
      fun M s hstep => build_step_good b 24 0 23 M [] s _
        (validateNumber_bound 0 23) (by omega) hvb hstep
    have hsortDom : ∀ M s, buildMonthDays c = .step M s → s.Sorted (· ≤ ·) ∧ s.Nodup :=
      fun M s hstep => build_step_good c 31 1 31 M [] s _
        (validateNumber_bound 1 31) (by omega) hvc hstep
    have hsortMon : ∀ M s, buildMonths d = .step M s → s.Sorted (· ≤ ·) ∧ s.Nodup :=
      fun M s hstep => build_step_good d 12 1 12 M monthsList s _
        (validateAlpha_bound 1 12 monthsList) (by omega) hvd hstep
    have hsortDow : ∀ M s, buildWeekdays e = .step M s → s.Sorted (· ≤ ·) ∧ s.Nodup :=
      fun M s hstep => build_step_good e 7 0 7 M weekdaysList s _
        (validateAlpha_bound 0 7 weekdaysList) (by omega) hvee hstep
    have hdow : ∀ M s, (fixSunday S0).dayWeek = .step M s →
        s.Sorted (· ≤ ·) ∧ (7 : Int) ∉ s := by
      intro M s hstep
      rcases hbw : buildWeekdays e with _ | ⟨m1, a1⟩ | ⟨m1, f1, t1⟩ | ⟨M0, st⟩
      · rw [fixSunday_dayWeek_other S0 (by intro M0 st0 hc; rw [show S0.dayWeek =
          buildWeekdays e from rfl, hbw] at hc; exact absurd hc (by simp))] at hstep
        rw [show S0.dayWeek = buildWeekdays e from rfl, hbw] at hstep
        exact absurd hstep (by simp)
      · rw [fixSunday_dayWeek_other S0 (by intro M0 st0 hc; rw [show S0.dayWeek =
          buildWeekdays e from rfl, hbw] at hc; exact absurd hc (by simp))] at hstep
        rw [show S0.dayWeek = buildWeekdays e from rfl, hbw] at hstep
        exact absurd hstep (by simp)
      · rw [fixSunday_dayWeek_other S0 (by intro M0 st0 hc; rw [show S0.dayWeek =
          buildWeekdays e from rfl, hbw] at hc; exact absurd hc (by simp))] at hstep
        rw [show S0.dayWeek = buildWeekdays e from rfl, hbw] at hstep
        exact absurd hstep (by simp)
      · have hst := hsortDow M0 st hbw
        have hsl := sundayLoop_good st hst.1 hst.2
        rw [fixSunday_dayWeek_step S0 M0 st hbw] at hstep
        injection hstep with h1 h2
        rw [← h2]
        exact ⟨hsl.1, hsl.2⟩
    constructor
    · intro r hr M s hstep
      simp only [List.mem_cons, List.not_mem_nil, or_false] at hr
      rcases hr with rfl | rfl | rfl | rfl | rfl | rfl
      · rw [(fixSunday_fields S0).1] at hstep
        exact absurd hstep (by simp)
      · rw [(fixSunday_fields S0).2.1] at hstep
        exact (hsortMin M s hstep).1
      · rw [(fixSunday_fields S0).2.2.1] at hstep
        exact (hsortHour M s hstep).1
      · rw [(fixSunday_fields S0).2.2.2.1] at hstep
        exact (hsortDom M s hstep).1
      · rw [(fixSunday_fields S0).2.2.2.2] at hstep
        exact (hsortMon M s hstep).1
      · exact (hdow M s hstep).1
    · intro M s hstep
      exact (hdow M s hstep).2
  · -- six fields
    simp only [Option.some.injEq] at hp
    have hv6 : validateSecondsF a = [] ∧ validateMinutesF b = [] ∧
        validateHoursF c = [] ∧ validateMonthDaysF d = [] ∧
        validateMonthsF e = [] ∧ validateWeekDaysF f = [] := by
      have hv2 : validateSecondsF a ++ validateMinutesF b ++ validateHoursF c ++
          validateMonthDaysF d ++ validateMonthsF e ++ validateWeekDaysF f = [] := hv
      simp only [List.append_eq_nil] at hv2
      tauto
    obtain ⟨hva, hvb, hvc, hvd, hvee, hvf⟩ := hv6
    subst hp
    set S0 : Schedule := ⟨buildSeconds a, buildMinutes b, buildHours c,
      buildMonthDays d, buildMonths e, buildWeekdays f⟩ with hS0
    have hsortSec : ∀ M s, buildSeconds a = .step M s → s.Sorted (· ≤ ·) ∧ s.Nodup :=
      fun M s hstep => build_step_good a 60 0 59 M [] s _
        (validateNumber_bound 0 59) (by omega) hva hstep
    have hsortMin : ∀ M s, buildMinutes b = .step M s → s.Sorted (· ≤ ·) ∧ s.Nodup :=
      fun M s hstep => build_step_good b 60 0 59 M [] s _
        (validateNumber_bound 0 59) (by omega) hvb hstep
    have hsortHour : ∀ M s, buildHours c = .step M s → s.Sorted (· ≤ ·) ∧ s.Nodup :=
      fun M s hstep => build_step_good c 24 0 23 M [] s _
        (validateNumber_bound 0 23) (by omega) hvc hstep
    have hsortDom : ∀ M s, buildMonthDays d = .step M s → s.Sorted (· ≤ ·) ∧ s.Nodup :=
      fun M s hstep => build_step_good d 31 1 31 M [] s _
        (validateNumber_bound 1 31) (by omega) hvd hstep
    have hsortMon : ∀ M s, buildMonths e = .step M s → s.Sorted (· ≤ ·) ∧ s.Nodup :=
      fun M s hstep => build_step_good e 12 1 12 M monthsList s _
        (validateAlpha_bound 1 12 monthsList) (by omega) hvee hstep
    have hsortDow : ∀ M s, buildWeekdays f = .step M s → s.Sorted (· ≤ ·) ∧ s.Nodup :=
      fun M s hstep => build_step_good f 7 0 7 M weekdaysList s _
        (validateAlpha_bound 0 7 weekdaysList) (by omega) hvf hstep
    have hdow : ∀ M s, (fixSunday S0).dayWeek = .step M s →
        s.Sorted (· ≤ ·) ∧ (7 : Int) ∉ s := by
      intro M s hstep
      rcases hbw : buildWeekdays f with _ | ⟨m1, a1⟩ | ⟨m1, f1, t1⟩ | ⟨M0, st⟩
      · rw [fixSunday_dayWeek_other S0 (by intro M0 st0 hc; rw [show S0.dayWeek =
          buildWeekdays f from rfl, hbw] at hc; exact absurd hc (by simp))] at hstep
        rw [show S0.dayWeek = buildWeekdays f from rfl, hbw] at hstep
        exact absurd hstep (by simp)
      · rw [fixSunday_dayWeek_other S0 (by intro M0 st0 hc; rw [show S0.dayWeek =
          buildWeekdays f from rfl, hbw] at hc; exact absurd hc (by simp))] at hstep
        rw [show S0.dayWeek = buildWeekdays f from rfl, hbw] at hstep
        exact absurd hstep (by simp)
      · rw [fixSunday_dayWeek_other S0 (by intro M0 st0 hc; rw [show S0.dayWeek =
          buildWeekdays f from rfl, hbw] at hc; exact absurd hc (by simp))] at hstep
        rw [show S0.dayWeek = buildWeekdays f from rfl, hbw] at hstep
        exact absurd hstep (by simp)
      · have hst := hsortDow M0 st hbw
        have hsl := sundayLoop_good st hst.1 hst.2
        rw [fixSunday_dayWeek_step S0 M0 st hbw] at hstep
        injection hstep with h1 h2
        rw [← h2]
        exact ⟨hsl.1, hsl.2⟩
    constructor
    · intro r hr M s hstep
      simp only [List.mem_cons, List.not_mem_nil, or_false] at hr
      rcases hr with rfl | rfl | rfl | rfl | rfl | rfl
      · rw [(fixSunday_fields S0).1] at hstep
        exact (hsortSec M s hstep).1
      · rw [(fixSunday_fields S0).2.1] at hstep
        exact (hsortMin M s hstep).1
      · rw [(fixSunday_fields S0).2.2.1] at hstep
        exact (hsortHour M s hstep).1
      · rw [(fixSunday_fields S0).2.2.2.1] at hstep
        exact (hsortDom M s hstep).1
      · rw [(fixSunday_fields S0).2.2.2.2] at hstep
        exact (hsortMon M s hstep).1
      · exact (hdow M s hstep).1
    · intro M s hstep
      exact (hdow M s hstep).2
  · simp at hp

/-- C5 witness: the day-of-week step list parsed from * * * * 0,7 is free
of 7 after the normalization. -/
theorem c5_witness : (7 : Int) ∉ ([0, 0] : List Int) :=
  (c5_step_lists tr07 s07 (by decide)).2 7 [0, 0] rfl

end Micron
